import Mathlib

/-!
Verification of the playback-orchestration core of a media/torrent desktop
application.  The definitions below are shallow embeddings of the functions in
`src/renderer/main.js` (and the subtitles controller in `src/unnamed/part_000`):
pure data manipulation is translated to Lean functions, stateful handlers become
functions from an explicit state record to the updated record together with a
list of emitted effects, and machine floats hold only dyadic values here
(multiples of 1/4 and powers of two), so exact rational arithmetic over `ℚ`
models them faithfully.
-/

namespace WebTorrentDesktop

/-! ### Playback rate (`changePlaybackRate`, main.js lines 407-426)

The JS value `state.playing.playbackRate` is a double; every value reachable by
the function below is a multiple of 1/4 or a power of two, all exactly
representable, so `ℚ` is a faithful model. -/

/-- Shallow embedding of `changePlaybackRate` from `main.js`: the pure rate
ladder step, before the cast-rejection fallback. `direction` is the integer
argument passed by the dispatcher (`> 0` increase, `< 0` decrease). -/
def changePlaybackRate (direction : Int) (rate : ℚ) : ℚ :=
  if direction > 0 ∧ rate ≥ 1/4 ∧ rate < 2 then rate + 1/4
  else if direction < 0 ∧ rate > 1/4 ∧ rate ≤ 2 then rate - 1/4
  else if direction < 0 ∧ rate = 1/4 then -1
  else if direction > 0 ∧ rate = -1 then 1/4
  else if (direction > 0 ∧ rate ≥ 1 ∧ rate < 16) ∨
          (direction < 0 ∧ rate > -16 ∧ rate ≤ -1) then rate * 2
  else if (direction < 0 ∧ rate > 1 ∧ rate ≤ 16) ∨
          (direction > 0 ∧ rate ≥ -16 ∧ rate < -1) then rate / 2
  else rate

/-- Full embedding of `changePlaybackRate` including the remote-cast fallback:
`if (lazyLoadCast().isCasting() && !Cast.setRate(rate)) playbackRate = 1`.
`accept` models the boolean-returning `Cast.setRate`. -/
def changePlaybackRateFull (direction : Int) (casting : Bool) (accept : ℚ → Bool)
    (rate : ℚ) : ℚ :=
  if casting && !(accept (changePlaybackRate direction rate)) then 1
  else changePlaybackRate direction rate

/-- The set of rates reachable from the default rate 1: additive quarter steps
in `[1/4, 2]`, powers of two up to 16, and the negative reverse-playback rung. -/
def rateLadder : List ℚ :=
  [1/4, 1/2, 3/4, 1, 5/4, 3/2, 7/4, 2, 4, 8, 16, -1, -2, -4, -8, -16]

/-- Folding any sequence of rate-adjust commands (direction, casting flag,
remote acceptance predicate) starting from a given rate. -/
def runRateCommands : List (Int × Bool × (ℚ → Bool)) → ℚ → ℚ
  | [], r => r
  | (d, c, a) :: cmds, r => runRateCommands cmds (changePlaybackRateFull d c a r)

lemma changePlaybackRate_sign (d : Int) (r : ℚ) :
    changePlaybackRate d r =
      if d > 0 then changePlaybackRate 1 r
      else if d < 0 then changePlaybackRate (-1) r
      else r := by
  by_cases h1 : d > 0 <;> by_cases h2 : d < 0
  · omega
  · simp only [changePlaybackRate, h1, h2, if_pos, if_neg, true_and, false_and,
      false_or, or_false, if_true]
    norm_num
  · simp only [changePlaybackRate, h1, h2, true_and, false_and, false_or,
      or_false, if_false]
    norm_num
  · have h3 : d = 0 := by omega
    subst h3
    simp [changePlaybackRate]

lemma step_up_mem : ∀ r ∈ rateLadder, changePlaybackRate 1 r ∈ rateLadder := by
  intro r hr
  unfold rateLadder at hr
  fin_cases hr <;> norm_num [changePlaybackRate, rateLadder]

lemma step_down_mem : ∀ r ∈ rateLadder, changePlaybackRate (-1) r ∈ rateLadder := by
  intro r hr
  unfold rateLadder at hr
  fin_cases hr <;> norm_num [changePlaybackRate, rateLadder]

lemma changePlaybackRate_mem (d : Int) (r : ℚ) (hr : r ∈ rateLadder) :
    changePlaybackRate d r ∈ rateLadder := by
  rw [changePlaybackRate_sign]
  by_cases h1 : d > 0
  · simpa [h1] using step_up_mem r hr
  · by_cases h2 : d < 0
    · simpa [h1, h2] using step_down_mem r hr
    · simpa [h1, h2] using hr

lemma changePlaybackRateFull_mem (d : Int) (c : Bool) (a : ℚ → Bool) (r : ℚ)
    (hr : r ∈ rateLadder) : changePlaybackRateFull d c a r ∈ rateLadder := by
  unfold changePlaybackRateFull
  split
  · norm_num [rateLadder]
  · exact changePlaybackRate_mem d r hr

lemma runRateCommands_mem (cmds : List (Int × Bool × (ℚ → Bool))) (r : ℚ)
    (hr : r ∈ rateLadder) : runRateCommands cmds r ∈ rateLadder := by
  induction cmds generalizing r with
  | nil => exact hr
  | cons cmd cmds ih =>
    obtain ⟨d, c, a⟩ := cmd
    exact ih _ (changePlaybackRateFull_mem d c a r hr)

/-- C1 counterexample: the claim says that from every rate with `|rate| ≥ 1` an
increase steps multiplicatively, so that from rate 1 a single increase yields 2.
The code instead takes the additive branch on `[1/4, 2)`: from rate 1 one
increase yields 5/4, not 2. -/
theorem rate_ladder_claim_false :
    changePlaybackRate 1 1 = 5/4 ∧ (5/4 : ℚ) ≠ 2 := by
  norm_num [changePlaybackRate]

lemma step_up_additive (r : ℚ) (h1 : 1/4 ≤ r) (h2 : r < 2) :
    changePlaybackRate 1 r = r + 1/4 := by
  unfold changePlaybackRate
  rw [if_pos ⟨by norm_num, h1, h2⟩]

lemma step_down_additive (r : ℚ) (h1 : 1/4 < r) (h2 : r ≤ 2) :
    changePlaybackRate (-1) r = r - 1/4 := by
  unfold changePlaybackRate
  rw [if_neg (by rintro ⟨h, -⟩; norm_num at h), if_pos ⟨by norm_num, h1, h2⟩]

lemma step_up_double (r : ℚ) (h1 : 2 ≤ r) (h2 : r < 16) :
    changePlaybackRate 1 r = r * 2 := by
  unfold changePlaybackRate
  rw [if_neg (by rintro ⟨-, -, h⟩; linarith),
    if_neg (by rintro ⟨h, -⟩; norm_num at h),
    if_neg (by rintro ⟨h, -⟩; norm_num at h),
    if_neg (by rintro ⟨-, h⟩; rw [h] at h1; norm_num at h1),
    if_pos (Or.inl ⟨by norm_num, by linarith, h2⟩)]

lemma step_down_halve (r : ℚ) (h1 : 2 < r) (h2 : r ≤ 16) :
    changePlaybackRate (-1) r = r / 2 := by
  unfold changePlaybackRate
  rw [if_neg (by rintro ⟨h, -⟩; norm_num at h),
    if_neg (by rintro ⟨-, -, h⟩; linarith),
    if_neg (by rintro ⟨-, h⟩; rw [h] at h1; norm_num at h1),
    if_neg (by rintro ⟨h, -⟩; norm_num at h),
    if_neg (by rintro (⟨h, -⟩ | ⟨-, -, h⟩) <;> [norm_num at h; linarith]),
    if_pos (Or.inl ⟨by norm_num, by linarith, h2⟩)]

lemma step_down_negative (r : ℚ) (h1 : -16 < r) (h2 : r ≤ -1) :
    changePlaybackRate (-1) r = r * 2 := by
  unfold changePlaybackRate
  rw [if_neg (by rintro ⟨h, -⟩; norm_num at h),
    if_neg (by rintro ⟨-, h, -⟩; linarith),
    if_neg (by rintro ⟨-, h⟩; rw [h] at h2; norm_num at h2),
    if_neg (by rintro ⟨h, -⟩; norm_num at h),
    if_pos (Or.inr ⟨by norm_num, h1, h2⟩)]

lemma step_up_negative (r : ℚ) (h1 : -16 ≤ r) (h2 : r < -1) :
    changePlaybackRate 1 r = r / 2 := by
  unfold changePlaybackRate
  rw [if_neg (by rintro ⟨-, h, -⟩; linarith),
    if_neg (by rintro ⟨h, -⟩; norm_num at h),
    if_neg (by rintro ⟨h, -⟩; norm_num at h),
    if_neg (by rintro ⟨-, h⟩; rw [h] at h2; norm_num at h2),
    if_neg (by rintro (⟨-, h, -⟩ | ⟨h, -, -⟩) <;> [linarith; norm_num at h]),
    if_pos (Or.inr ⟨by norm_num, h1, h2⟩)]

/-- C1 (amended): the additive quarter steps cover the whole band `[1/4, 2]`,
not only rates below 1: an increase adds 1/4 while `1/4 ≤ rate < 2` and a
decrease subtracts 1/4 while `1/4 < rate ≤ 2`, so from rate 1 four consecutive
increases yield 5/4, 3/2, 7/4, 2; multiplicative steps apply outside the band:
an increase doubles for `2 ≤ rate < 16` and halves negative rates in
`[-16, -1)`, a decrease halves for `2 < rate ≤ 16` and doubles negative rates
in `(-16, -1]`; from 16 a further increase is a no-op; from 1/4 one decrease
yields -1; and from -1 one increase yields 1/4. -/
theorem rate_ladder_amended :
    (∀ r : ℚ, 1/4 ≤ r → r < 2 → changePlaybackRate 1 r = r + 1/4) ∧
    (∀ r : ℚ, 1/4 < r → r ≤ 2 → changePlaybackRate (-1) r = r - 1/4) ∧
    (∀ r : ℚ, 2 ≤ r → r < 16 → changePlaybackRate 1 r = r * 2) ∧
    (∀ r : ℚ, 2 < r → r ≤ 16 → changePlaybackRate (-1) r = r / 2) ∧
    (∀ r : ℚ, -16 < r → r ≤ -1 → changePlaybackRate (-1) r = r * 2) ∧
    (∀ r : ℚ, -16 ≤ r → r < -1 → changePlaybackRate 1 r = r / 2) ∧
    changePlaybackRate 1 1 = 5/4 ∧
    changePlaybackRate 1 (5/4) = 3/2 ∧
    changePlaybackRate 1 (3/2) = 7/4 ∧
    changePlaybackRate 1 (7/4) = 2 ∧
    changePlaybackRate 1 2 = 4 ∧
    changePlaybackRate 1 4 = 8 ∧
    changePlaybackRate 1 8 = 16 ∧
    changePlaybackRate 1 16 = 16 ∧
    changePlaybackRate (-1) (1/4) = -1 ∧
    changePlaybackRate 1 (-1) = 1/4 :=
  ⟨step_up_additive, step_down_additive, step_up_double, step_down_halve,
   step_down_negative, step_up_negative, by norm_num [changePlaybackRate]⟩

/-- Witness for C1 (amended) at concrete rates, one per quantified band:
additive increase at 1/2, additive decrease at 2, doubling at 4, halving at 4,
negative doubling at -1, negative halving at -4. -/
theorem rate_ladder_amended_witness :
    changePlaybackRate 1 (1/2) = 1/2 + 1/4 ∧
    changePlaybackRate (-1) 2 = 2 - 1/4 ∧
    changePlaybackRate 1 4 = 4 * 2 ∧
    changePlaybackRate (-1) 4 = 4 / 2 ∧
    changePlaybackRate (-1) (-1) = -1 * 2 ∧
    changePlaybackRate 1 (-4) = -4 / 2 :=
  ⟨rate_ladder_amended.1 (1/2) (by norm_num) (by norm_num),
   rate_ladder_amended.2.1 2 (by norm_num) (by norm_num),
   rate_ladder_amended.2.2.1 4 (by norm_num) (by norm_num),
   rate_ladder_amended.2.2.2.1 4 (by norm_num) (by norm_num),
   rate_ladder_amended.2.2.2.2.1 (-1) (by norm_num) (by norm_num),
   rate_ladder_amended.2.2.2.2.2.1 (-4) (by norm_num) (by norm_num)⟩

/-- C10: the playback rate is never set to zero: every rate reachable from the
default rate 1 by any sequence of rate-adjust commands (any direction, any
casting state, any remote acceptance behaviour, including the forced fallback
to 1) is nonzero. -/
theorem playbackRate_never_zero (cmds : List (Int × Bool × (ℚ → Bool))) :
    runRateCommands cmds 1 ≠ 0 := by
  have h := runRateCommands_mem cmds 1 (by norm_num [rateLadder])
  intro h0
  rw [h0] at h
  norm_num [rateLadder] at h

/-! ### Subtitle ingestion pipeline (`addSubtitles`, `loadSubtitle`,
`relabelSubtitles`, main.js lines 517-600 / part_000 lines 33-134)

A loaded subtitle track carries a data-URI buffer, the detected language, its
display label and the originating file path.  The system-locale comparison
`isSystemLanguage` consults `window.navigator.language`, an ambient input, so
it is modelled as an opaque predicate `matches : String → Bool` passed to the
ingest function.  Each concurrent `loadSubtitle` task either produces a track
(calling its callback) or reports a parse error directly to the error sink
and never calls its callback; a batch load is therefore
a list of `Except`. -/

structure SubTrack where
  buffer : String
  language : String
  label : String
  filePath : String
deriving DecidableEq

/-- `state.playing.subtitles`: the subtitle sub-state. -/
structure Subtitles where
  tracks : List SubTrack
  selectedIndex : Option Nat
  showMenu : Bool
deriving DecidableEq

/-- One iteration of the loop body in `addSubtitles`: skip the candidate if a
track with the same originating file path is already stored, otherwise append
it and, when auto-selecting, select it if it is the first candidate of the call
(`i === 0`) or its language matches the system locale. -/
def addTrack (langMatch : String → Bool) (autoSelect : Bool) (st : Subtitles)
    (i : Nat) (track : SubTrack) : Subtitles :=
  if st.tracks.any fun t => track.filePath == t.filePath then st
  else
    { st with
      tracks := st.tracks ++ [track]
      selectedIndex :=
        if autoSelect && (i == 0 || langMatch track.language) then
          some ((st.tracks ++ [track]).length - 1)
        else st.selectedIndex }

/-- The `for (var i = 0; i < tracks.length; i++)` loop of `addSubtitles`. -/
def addTracksLoop (langMatch : String → Bool) (autoSelect : Bool) :
    Nat → List SubTrack → Subtitles → Subtitles
  | _, [], st => st
  | i, t :: ts, st =>
      addTracksLoop langMatch autoSelect (i + 1) ts (addTrack langMatch autoSelect st i t)

/-- The walk of `relabelSubtitles`: `counts` holds how many tracks of each
language have been seen so far (the JS `counts` object); the Nth occurrence of
a language is labelled `"<language> N"` for N ≥ 2 and `"<language>"` for N = 1. -/
def relabelGo (counts : String → Nat) : List SubTrack → List SubTrack
  | [] => []
  | t :: ts =>
      { t with
        label :=
          if counts t.language + 1 > 1 then
            t.language ++ " " ++ toString (counts t.language + 1)
          else t.language } ::
        relabelGo (fun l => if l = t.language then counts t.language + 1 else counts l) ts

/-- `relabelSubtitles` from main.js lines 593-600: rewrite every label from the
track languages, starting from empty counts. -/
def relabelSubtitles (st : Subtitles) : Subtitles :=
  { st with tracks := relabelGo (fun _ => 0) st.tracks }

/-- Successful results of the concurrent `loadSubtitle` tasks, in input order. -/
def okTracks (loads : List (Except String SubTrack)) : List SubTrack :=
  loads.filterMap fun r =>
    match r with
    | Except.ok t => some t
    | Except.error _ => none

/-- The parse errors reported by failing `loadSubtitle` tasks, one per failing
file (each failing task calls the error sink directly and never its callback). -/
def loadErrors (loads : List (Except String SubTrack)) : List String :=
  loads.filterMap fun r =>
    match r with
    | Except.ok _ => none
    | Except.error e => some e

/-- Shallow embedding of `addSubtitles(files, autoSelect)`.  Returns the new
subtitle sub-state and the list of surfaced errors.  When any file fails, its
task never completes, so the `parallel` callback never runs: no tracks are
appended, the selection is untouched, and the per-file errors are the only
effect.  When all files load, the loop appends/deduplicates/selects and the
state is finally relabelled. -/
def addSubtitles (langMatch : String → Bool) (playingType : String)
    (st : Subtitles) (loads : List (Except String SubTrack)) (autoSelect : Bool) :
    Subtitles × List String :=
  if playingType ≠ "video" then (st, [])
  else if loads.length = 0 then (st, [])
  else if loadErrors loads ≠ [] then (st, loadErrors loads)
  else (relabelSubtitles (addTracksLoop langMatch autoSelect 0 (okTracks loads) st), [])

/-- A sequence of ingest calls: each batch carries the playing media type at
the time of the call, the load results, and its autoSelect flag. -/
def runBatches (langMatch : String → Bool) :
    List (String × List (Except String SubTrack) × Bool) → Subtitles → Subtitles
  | [], st => st
  | (ty, loads, autoSel) :: bs, st =>
      runBatches langMatch bs (addSubtitles langMatch ty st loads autoSel).1

/-- The dedup keys: originating file paths of the stored tracks, in order. -/
def subtitlePaths (st : Subtitles) : List String :=
  st.tracks.map SubTrack.filePath

lemma relabelGo_map_filePath (c : String → Nat) (ts : List SubTrack) :
    (relabelGo c ts).map SubTrack.filePath = ts.map SubTrack.filePath := by
  induction ts generalizing c with
  | nil => rfl
  | cons t ts ih => simp [relabelGo, ih]

lemma relabelGo_map_language (c : String → Nat) (ts : List SubTrack) :
    (relabelGo c ts).map SubTrack.language = ts.map SubTrack.language := by
  induction ts generalizing c with
  | nil => rfl
  | cons t ts ih => simp [relabelGo, ih]

lemma relabelSubtitles_paths (st : Subtitles) :
    subtitlePaths (relabelSubtitles st) = subtitlePaths st := by
  simp [relabelSubtitles, subtitlePaths, relabelGo_map_filePath]

lemma relabelSubtitles_selectedIndex (st : Subtitles) :
    (relabelSubtitles st).selectedIndex = st.selectedIndex := rfl

lemma addTrack_paths_nodup (m : String → Bool) (a : Bool) (st : Subtitles)
    (i : Nat) (t : SubTrack) (h : (subtitlePaths st).Nodup) :
    (subtitlePaths (addTrack m a st i t)).Nodup := by
  unfold addTrack
  split
  · exact h
  · rename_i hdup
    simp only [List.any_eq_true, beq_iff_eq, not_exists, not_and] at hdup
    simp only [subtitlePaths, List.map_append, List.map_cons, List.map_nil]
    rw [List.nodup_append]
    refine ⟨h, List.nodup_singleton _, ?_⟩
    intro p hp hpt
    simp only [List.mem_singleton] at hpt
    subst hpt
    obtain ⟨t0, ht0, hpath⟩ := List.mem_map.mp hp
    exact hdup t0 ht0 hpath.symm

lemma addTracksLoop_paths_nodup (m : String → Bool) (a : Bool) :
    ∀ (cands : List SubTrack) (st : Subtitles) (i : Nat),
      (subtitlePaths st).Nodup →
      (subtitlePaths (addTracksLoop m a i cands st)).Nodup := by
  intro cands
  induction cands with
  | nil => intro st i h; exact h
  | cons t ts ih =>
    intro st i h
    exact ih _ _ (addTrack_paths_nodup m a st i t h)

lemma addSubtitles_fst_paths_nodup (m : String → Bool) (ty : String)
    (st : Subtitles) (loads : List (Except String SubTrack)) (a : Bool)
    (h : (subtitlePaths st).Nodup) :
    (subtitlePaths (addSubtitles m ty st loads a).1).Nodup := by
  unfold addSubtitles
  split
  · exact h
  split
  · exact h
  split
  · exact h
  · have h2 := addTracksLoop_paths_nodup m a (okTracks loads) st 0 h
    simpa [relabelSubtitles_paths] using h2

/-- C4: after any sequence of ingest calls, including repeated files within one
call and across calls, no two stored subtitle tracks share an originating file
path (the dedup invariant is preserved by every batch); moreover a candidate
whose file path equals that of an already-stored track is skipped with the
whole sub-state left untouched. -/
theorem subtitle_paths_nodup (m : String → Bool)
    (batches : List (String × List (Except String SubTrack) × Bool))
    (st : Subtitles) (h : (subtitlePaths st).Nodup) :
    (subtitlePaths (runBatches m batches st)).Nodup ∧
    ∀ (m' : String → Bool) (a' : Bool) (st' : Subtitles) (i : Nat) (t : SubTrack),
      (st'.tracks.any fun t0 => t.filePath == t0.filePath) = true →
      addTrack m' a' st' i t = st' := by
  constructor
  · induction batches generalizing st with
    | nil => exact h
    | cons b bs ih =>
      obtain ⟨ty, loads, autoSel⟩ := b
      exact ih _ (addSubtitles_fst_paths_nodup m ty st loads autoSel h)
  · intro m' a' st' i t ht
    unfold addTrack
    rw [if_pos ht]

/-- Witness for C4 at a concrete input: one batch that offers the same file
twice still yields duplicate-free paths. -/
theorem subtitle_paths_nodup_witness :
    (subtitlePaths (runBatches (fun _ => false)
      [("video",
        [Except.ok ⟨"b", "English", "English", "/p"⟩,
         Except.ok ⟨"b", "English", "English", "/p"⟩], true)]
      ⟨[], none, false⟩)).Nodup :=
  (subtitle_paths_nodup (fun _ => false) _ _ (by simp [subtitlePaths])).1

lemma relabelGo_idem (c : String → Nat) (ts : List SubTrack) :
    relabelGo c (relabelGo c ts) = relabelGo c ts := by
  induction ts generalizing c with
  | nil => rfl
  | cons t ts ih =>
    simp only [relabelGo, List.cons.injEq]
    exact ⟨trivial, ih _⟩

/-- C7: relabelling the subtitle track list is idempotent: running the
relabel pass twice in a row yields the same state (hence the same labels) as
running it once. -/
theorem relabelSubtitles_idempotent (st : Subtitles) :
    relabelSubtitles (relabelSubtitles st) = relabelSubtitles st := by
  unfold relabelSubtitles
  simp [relabelGo_idem]

/-- C5 counterexample: a batch with two failing candidate files surfaces two
pipeline errors, not exactly one. -/
theorem subtitle_ingest_two_errors :
    (addSubtitles (fun _ => false) "video" ⟨[], none, false⟩
      [Except.error "Error parsing subtitles file.",
       Except.error "Error parsing subtitles file."] true).2.length = 2 ∧
    (2 : Nat) ≠ 1 := by
  constructor
  · rfl
  · decide

/-- C5 (amended): when any candidate file of an ingest batch fails to load, no
tracks from the batch are appended and the selected index is unchanged (the
whole call is aborted), and one pipeline error is surfaced per failing file —
at least one, but one per failure rather than exactly one for the batch. -/
theorem subtitle_ingest_failure (m : String → Bool) (st : Subtitles)
    (loads : List (Except String SubTrack)) (a : Bool)
    (h : loadErrors loads ≠ []) :
    addSubtitles m "video" st loads a = (st, loadErrors loads) ∧
    1 ≤ (loadErrors loads).length := by
  have hlen : ¬loads.length = 0 := by
    intro h0
    rw [List.length_eq_zero] at h0
    subst h0
    exact h rfl
  constructor
  · unfold addSubtitles
    rw [if_neg (by decide), if_neg hlen, if_pos h]
  · exact List.length_pos.mpr h

/-- Witness for C5 at a concrete input: a single failing file aborts the batch
and surfaces its error. -/
theorem subtitle_ingest_failure_witness :
    addSubtitles (fun _ => false) "video" ⟨[], none, false⟩
      [Except.error "Error parsing subtitles file."] true =
      (⟨[], none, false⟩,
        loadErrors [(Except.error "Error parsing subtitles file." :
          Except String SubTrack)]) ∧
    1 ≤ (loadErrors [(Except.error "Error parsing subtitles file." :
          Except String SubTrack)]).length :=
  subtitle_ingest_failure (fun _ => false) ⟨[], none, false⟩
    [Except.error "Error parsing subtitles file."] true (by decide)

/-- The input-order position of the last candidate whose detected language
matches the system locale, if any. -/
def lastMatchIdx (langMatch : String → Bool) : List SubTrack → Option Nat
  | [] => none
  | t :: ts =>
    match lastMatchIdx langMatch ts with
    | some j => some (j + 1)
    | none => if langMatch t.language then some 0 else none

/-- A batch is fresh for a state when no candidate file path collides with a
stored track or with another candidate: the stored paths followed by the
candidate paths are pairwise distinct. -/
def freshBatch (st : Subtitles) (cands : List SubTrack) : Prop :=
  (st.tracks.map SubTrack.filePath ++ cands.map SubTrack.filePath).Nodup

lemma addTrack_of_fresh (langMatch : String → Bool) (a : Bool) (st : Subtitles)
    (i : Nat) (t : SubTrack) (h : t.filePath ∉ st.tracks.map SubTrack.filePath) :
    addTrack langMatch a st i t =
      { st with
        tracks := st.tracks ++ [t]
        selectedIndex :=
          if a && (i == 0 || langMatch t.language) then some st.tracks.length
          else st.selectedIndex } := by
  unfold addTrack
  rw [if_neg]
  · simp
  · simp only [List.any_eq_true, beq_iff_eq, not_exists, not_and]
    intro t0 ht0 heq
    exact h (heq ▸ List.mem_map_of_mem SubTrack.filePath ht0)

lemma fresh_head_not_mem {st : Subtitles} {t : SubTrack} {ts : List SubTrack}
    (h : freshBatch st (t :: ts)) :
    t.filePath ∉ st.tracks.map SubTrack.filePath := by
  unfold freshBatch at h
  rw [List.nodup_append] at h
  intro hmem
  exact h.2.2 hmem (List.mem_cons_self _ _)

lemma fresh_tail (langMatch : String → Bool) (a : Bool) (i : Nat)
    {st : Subtitles} {t : SubTrack} {ts : List SubTrack}
    (h : freshBatch st (t :: ts)) :
    freshBatch (addTrack langMatch a st i t) ts := by
  rw [addTrack_of_fresh langMatch a st i t (fresh_head_not_mem h)]
  unfold freshBatch at h ⊢
  simp only [List.map_append, List.map_cons, List.map_nil] at h ⊢
  rw [List.append_assoc, List.singleton_append]
  exact h

lemma addTrack_tracks_of_fresh (langMatch : String → Bool) (a : Bool)
    (st : Subtitles) (i : Nat) (t : SubTrack)
    (h : t.filePath ∉ st.tracks.map SubTrack.filePath) :
    (addTrack langMatch a st i t).tracks = st.tracks ++ [t] := by
  rw [addTrack_of_fresh langMatch a st i t h]

lemma addTracksLoop_tracks_of_fresh (langMatch : String → Bool) (a : Bool) :
    ∀ (cands : List SubTrack) (st : Subtitles) (i : Nat), freshBatch st cands →
      (addTracksLoop langMatch a i cands st).tracks = st.tracks ++ cands := by
  intro cands
  induction cands with
  | nil => intro st i _; simp [addTracksLoop]
  | cons t ts ih =>
    intro st i h
    simp only [addTracksLoop]
    rw [ih _ _ (fresh_tail langMatch a i h),
      addTrack_tracks_of_fresh langMatch a st i t (fresh_head_not_mem h),
      List.append_assoc, List.singleton_append]

lemma addTrack_sel_of_no_trigger (langMatch : String → Bool) (a : Bool)
    (st : Subtitles) (i : Nat) (t : SubTrack)
    (h : (a && (i == 0 || langMatch t.language)) = false) :
    (addTrack langMatch a st i t).selectedIndex = st.selectedIndex := by
  unfold addTrack
  split
  · rfl
  · simp [h]

lemma addTracksLoop_sel_of_no_match (langMatch : String → Bool) (a : Bool) :
    ∀ (cands : List SubTrack) (st : Subtitles) (i : Nat), i ≠ 0 →
      (∀ t ∈ cands, langMatch t.language = false) →
      (addTracksLoop langMatch a i cands st).selectedIndex = st.selectedIndex := by
  intro cands
  induction cands with
  | nil => intro st i _ _; rfl
  | cons t ts ih =>
    intro st i hi hm
    simp only [addTracksLoop]
    rw [ih _ _ (Nat.succ_ne_zero i) fun t' ht' => hm t' (List.mem_cons_of_mem _ ht')]
    apply addTrack_sel_of_no_trigger
    have h0 : (i == 0) = false := by
      simpa using hi
    simp [h0, hm t (List.mem_cons_self _ _)]

lemma lastMatchIdx_none_no_match (langMatch : String → Bool) :
    ∀ (ts : List SubTrack), lastMatchIdx langMatch ts = none →
      ∀ t ∈ ts, langMatch t.language = false := by
  intro ts
  induction ts with
  | nil => intro _ t ht; cases ht
  | cons t ts ih =>
    intro h t' ht'
    simp only [lastMatchIdx] at h
    rcases hts : lastMatchIdx langMatch ts with _ | j
    · rw [hts] at h
      rcases List.mem_cons.mp ht' with rfl | ht'
      · by_cases hm : langMatch t'.language
        · rw [if_pos hm] at h; cases h
        · simpa using hm
      · exact ih hts t' ht'
    · rw [hts] at h; cases h

lemma lastMatchIdx_getElem (langMatch : String → Bool) :
    ∀ (ts : List SubTrack) (j : Nat), lastMatchIdx langMatch ts = some j →
      ∃ t, ts[j]? = some t ∧ langMatch t.language = true := by
  intro ts
  induction ts with
  | nil => intro j h; cases h
  | cons t ts ih =>
    intro j h
    simp only [lastMatchIdx] at h
    rcases hts : lastMatchIdx langMatch ts with _ | j'
    · rw [hts] at h
      by_cases hm : langMatch t.language
      · rw [if_pos hm] at h
        obtain rfl : j = 0 := by cases h; rfl
        exact ⟨t, by simp, hm⟩
      · rw [if_neg hm] at h; cases h
    · rw [hts] at h
      obtain rfl : j = j' + 1 := by cases h; rfl
      obtain ⟨t', ht', hm'⟩ := ih j' hts
      exact ⟨t', by simpa using ht', hm'⟩

lemma addTracksLoop_sel_of_lastMatch (langMatch : String → Bool) :
    ∀ (cands : List SubTrack) (st : Subtitles) (i j : Nat), i ≠ 0 →
      freshBatch st cands → lastMatchIdx langMatch cands = some j →
      (addTracksLoop langMatch true i cands st).selectedIndex =
        some (st.tracks.length + j) := by
  intro cands
  induction cands with
  | nil => intro st i j _ _ h; cases h
  | cons t ts ih =>
    intro st i j hi hfresh hlast
    simp only [lastMatchIdx] at hlast
    have hfresh' := fresh_tail langMatch true i hfresh
    have hlen1 : (addTrack langMatch true st i t).tracks.length =
        st.tracks.length + 1 := by
      rw [addTrack_tracks_of_fresh langMatch true st i t (fresh_head_not_mem hfresh)]
      simp
    simp only [addTracksLoop]
    rcases hts : lastMatchIdx langMatch ts with _ | j'
    · rw [hts] at hlast
      by_cases hm : langMatch t.language
      · rw [if_pos hm] at hlast
        obtain rfl : j = 0 := by cases hlast; rfl
        rw [addTracksLoop_sel_of_no_match langMatch true ts _ (i + 1)
          (Nat.succ_ne_zero i) (lastMatchIdx_none_no_match langMatch ts hts)]
        rw [addTrack_of_fresh langMatch true st i t (fresh_head_not_mem hfresh)]
        simp [hm]
      · rw [if_neg hm] at hlast; cases hlast
    · rw [hts] at hlast
      obtain rfl : j = j' + 1 := by cases hlast; rfl
      rw [ih _ (i + 1) j' (Nat.succ_ne_zero i) hfresh' hts, hlen1]
      congr 1
      omega

lemma addTracksLoop_sel_zero (langMatch : String → Bool)
    (cands : List SubTrack) (st : Subtitles) (j : Nat)
    (hfresh : freshBatch st cands)
    (hlast : lastMatchIdx langMatch cands = some j) :
    (addTracksLoop langMatch true 0 cands st).selectedIndex =
      some (st.tracks.length + j) := by
  cases cands with
  | nil => cases hlast
  | cons t ts =>
    have hnotmem := fresh_head_not_mem hfresh
    have hsel1 : (addTrack langMatch true st 0 t).selectedIndex =
        some st.tracks.length := by
      rw [addTrack_of_fresh langMatch true st 0 t hnotmem]
      simp
    have hlen1 : (addTrack langMatch true st 0 t).tracks.length =
        st.tracks.length + 1 := by
      rw [addTrack_tracks_of_fresh langMatch true st 0 t hnotmem]
      simp
    have hfresh' := fresh_tail langMatch true 0 hfresh
    simp only [lastMatchIdx] at hlast
    simp only [addTracksLoop]
    rcases hts : lastMatchIdx langMatch ts with _ | j'
    · rw [hts] at hlast
      by_cases hm : langMatch t.language
      · rw [if_pos hm] at hlast
        obtain rfl : j = 0 := by cases hlast; rfl
        rw [addTracksLoop_sel_of_no_match langMatch true ts _ (0 + 1)
          (Nat.succ_ne_zero 0) (lastMatchIdx_none_no_match langMatch ts hts), hsel1]
        simp
      · rw [if_neg hm] at hlast; cases hlast
    · rw [hts] at hlast
      obtain rfl : j = j' + 1 := by cases hlast; rfl
      rw [addTracksLoop_sel_of_lastMatch langMatch ts _ (0 + 1) j'
        (Nat.succ_ne_zero 0) hfresh' hts, hlen1]
      congr 1
      omega

lemma okTracks_map_ok (cands : List SubTrack) :
    okTracks (cands.map Except.ok) = cands := by
  induction cands with
  | nil => rfl
  | cons t ts ih => simpa [okTracks, List.filterMap_cons] using ih

lemma loadErrors_map_ok (cands : List SubTrack) :
    loadErrors (cands.map Except.ok) = [] := by
  induction cands with
  | nil => rfl
  | cons t ts ih => simp [loadErrors, List.filterMap_cons]

lemma addSubtitles_all_ok (langMatch : String → Bool) (st : Subtitles)
    (cands : List SubTrack) (a : Bool) (h : cands ≠ []) :
    addSubtitles langMatch "video" st (cands.map Except.ok) a =
      (relabelSubtitles (addTracksLoop langMatch a 0 cands st), []) := by
  unfold addSubtitles
  rw [if_neg (by decide), if_neg (by simp [h]),
    if_neg (by simp [loadErrors_map_ok]), okTracks_map_ok]

/-- C3 counterexample: with `autoSelect = true` and two locale-matching files
offered in one call (input positions 1 and 2, position 0 not matching), the
selection ends on the last match (index 2), not the first match (index 1). -/
theorem subtitle_autoselect_claim_false :
    ((addSubtitles (fun l => l == "English") "video" ⟨[], none, false⟩
        [Except.ok ⟨"b0", "French", "French", "/s0"⟩,
         Except.ok ⟨"b1", "English", "English", "/s1"⟩,
         Except.ok ⟨"b2", "English", "English", "/s2"⟩] true).1.selectedIndex =
      some 2) ∧
    ((addSubtitles (fun l => l == "English") "video" ⟨[], none, false⟩
        [Except.ok ⟨"b0", "French", "French", "/s0"⟩,
         Except.ok ⟨"b1", "English", "English", "/s1"⟩,
         Except.ok ⟨"b2", "English", "English", "/s2"⟩] true).1.tracks.map
      SubTrack.language = ["French", "English", "English"]) ∧
    some 2 ≠ some 1 := by
  refine ⟨rfl, rfl, by decide⟩

/-- C3 (amended): for an ingest batch with `autoSelect = true` whose candidate
files all load and are fresh (no path collides with a stored track or another
candidate), if the detected language of some candidate matches the system locale,
then the selected index after the call points at the LAST locale-matching
candidate in input order (later matches overwrite earlier selections and the
first-offered floor), and the language of that track does match. -/
theorem subtitle_autoselect_amended (langMatch : String → Bool) (st : Subtitles)
    (cands : List SubTrack) (j : Nat)
    (hfresh : freshBatch st cands)
    (hlast : lastMatchIdx langMatch cands = some j) :
    (addSubtitles langMatch "video" st (cands.map Except.ok) true).1.selectedIndex =
      some (st.tracks.length + j) ∧
    ∃ t, (addSubtitles langMatch "video" st (cands.map Except.ok)
            true).1.tracks[st.tracks.length + j]? = some t ∧
      langMatch t.language = true := by
  have hcands : cands ≠ [] := by
    rintro rfl
    cases hlast
  rw [addSubtitles_all_ok langMatch st cands true hcands]
  constructor
  · rw [relabelSubtitles_selectedIndex,
      addTracksLoop_sel_zero langMatch cands st j hfresh hlast]
  · obtain ⟨t, hget, hm⟩ := lastMatchIdx_getElem langMatch cands j hlast
    have htracks := addTracksLoop_tracks_of_fresh langMatch true cands st 0 hfresh
    have hmapL : ((relabelSubtitles (addTracksLoop langMatch true 0 cands st)).tracks).map
        SubTrack.language = (st.tracks ++ cands).map SubTrack.language := by
      show (relabelGo (fun _ => 0) (addTracksLoop langMatch true 0 cands st).tracks).map
        SubTrack.language = _
      rw [relabelGo_map_language, htracks]
    have hidx : ((relabelSubtitles (addTracksLoop langMatch true 0 cands
        st)).tracks[st.tracks.length + j]?).map SubTrack.language =
        some t.language := by
      have h1 := congrArg (fun l => l[st.tracks.length + j]?) hmapL
      simp only [List.getElem?_map] at h1
      rw [h1, List.getElem?_append_right (by omega)]
      have : st.tracks.length + j - st.tracks.length = j := by omega
      rw [this, hget]
      rfl
    obtain ⟨t', ht', hlang⟩ := Option.map_eq_some'.mp hidx
    exact ⟨t', ht', by rw [hlang]; exact hm⟩

/-- Witness for C3 (amended) at a concrete input: a single matching fresh
candidate is appended and selected. -/
theorem subtitle_autoselect_amended_witness :
    ((addSubtitles (fun l => l == "English") "video" ⟨[], none, false⟩
        (([⟨"b", "English", "English", "/w"⟩] : List SubTrack).map Except.ok)
        true).1.selectedIndex =
      some ((⟨[], none, false⟩ : Subtitles).tracks.length + 0)) ∧
    ∃ t, (addSubtitles (fun l => l == "English") "video" ⟨[], none, false⟩
        (([⟨"b", "English", "English", "/w"⟩] : List SubTrack).map Except.ok)
        true).1.tracks[(⟨[], none, false⟩ : Subtitles).tracks.length + 0]? =
      some t ∧ (fun l => l == "English") t.language = true :=
  subtitle_autoselect_amended (fun l => l == "English") ⟨[], none, false⟩
    [⟨"b", "English", "English", "/w"⟩] 0
    (by simp [freshBatch]) (by decide)

/-! ### Playback session: the server-ready / timeout race
(`openPlayer` and `openPlayerFromActiveTorrent`, main.js lines 819-898)

The timeout handler tags the summary with playStatus = timeout, plays the
error sound and reports the timeout error through the callback; it does not
tear anything down.  The server-ready handler clears the timer, reads and
deletes the playStatus tag, and either tears down the content server (stale
readiness after a timeout) or proceeds to start playback. -/

inductive PlayerEffect
  | soundError
  | cbTimeoutError
  | stopServer
  | playerOpen
  | cbSuccess
deriving DecidableEq

/-- The per-open session state relevant to the race: the transient
`torrentSummary.playStatus` tag and whether the 10-second timer is pending. -/
structure ServerWait where
  playStatus : Option String
  timerActive : Bool
deriving DecidableEq

/-- The `setTimeout` handler firing (only a pending timer can fire). -/
def timeoutFire (s : ServerWait) : ServerWait × List PlayerEffect :=
  if s.timerActive then
    ({ playStatus := some "timeout", timerActive := false },
      [PlayerEffect.soundError, PlayerEffect.cbTimeoutError])
  else (s, [])

/-- The wt-server event handler: `clearTimeout`, read and delete
`playStatus`, then either tear down the server (timed out) or start playing. -/
def serverReady (s : ServerWait) : ServerWait × List PlayerEffect :=
  let afterClear : ServerWait := { s with timerActive := false }
  if afterClear.playStatus == some "timeout" then
    ({ afterClear with playStatus := none }, [PlayerEffect.stopServer])
  else
    ({ afterClear with playStatus := none },
      [PlayerEffect.playerOpen, PlayerEffect.cbSuccess])

/-- Run a sequence of session events, accumulating emitted effects. -/
def runPlayerEvents :
    List (ServerWait → ServerWait × List PlayerEffect) → ServerWait →
      ServerWait × List PlayerEffect
  | [], s => (s, [])
  | e :: es, s =>
      ((runPlayerEvents es (e s).1).1, (e s).2 ++ (runPlayerEvents es (e s).1).2)

/-- C2: when the server-ready event arrives strictly after the timeout fired,
the handler cancels the timer, discards the stale readiness (the playStatus
tag is deleted and the session is idle), commands the engine to tear down the
content server, and never starts playback: exactly one timeout error is
reported and no success path (no player-open command, no success callback) is
taken. -/
theorem late_server_ready_after_timeout :
    (runPlayerEvents [timeoutFire, serverReady] ⟨some "requested", true⟩).1 =
      ⟨none, false⟩ ∧
    (runPlayerEvents [timeoutFire, serverReady] ⟨some "requested", true⟩).2 =
      [PlayerEffect.soundError, PlayerEffect.cbTimeoutError,
       PlayerEffect.stopServer] ∧
    (runPlayerEvents [timeoutFire, serverReady]
        ⟨some "requested", true⟩).2.count PlayerEffect.cbTimeoutError = 1 ∧
    PlayerEffect.playerOpen ∉
      (runPlayerEvents [timeoutFire, serverReady] ⟨some "requested", true⟩).2 ∧
    PlayerEffect.cbSuccess ∉
      (runPlayerEvents [timeoutFire, serverReady] ⟨some "requested", true⟩).2 := by
  refine ⟨rfl, rfl, by decide, by decide, by decide⟩

/-! ### Completion events (`torrentDone`, main.js lines 703-719) -/

inductive DoneEffect
  | notifyDone
  | sendDownloadFinished
deriving DecidableEq

/-- The summary status and the dock badge (the unseen-completions counter). -/
structure DoneState where
  status : String
  badge : Nat
deriving DecidableEq

/-- Shallow embedding of `torrentDone`: always set status to seeding; only
when at least one byte was received this run, bump the badge (if the window is
unfocused) and fire the one-time done notification and finished command. -/
def torrentDone (isFocused : Bool) (bytesReceived : Nat) (s : DoneState) :
    DoneState × List DoneEffect :=
  let s1 : DoneState := { s with status := "seeding" }
  if bytesReceived > 0 then
    (if isFocused then s1 else { s1 with badge := s1.badge + 1 },
      [DoneEffect.notifyDone, DoneEffect.sendDownloadFinished])
  else (s1, [])

/-- C6: a completion event with zero transferred bytes produces no
download-finished notification and no unseen-completions increment, while a
completion with at least one transferred byte produces exactly one
notification; in both cases the status is set to seeding. -/
theorem torrentDone_notification (f : Bool) (b : Nat) (s : DoneState) :
    (torrentDone f b s).1.status = "seeding" ∧
    (b = 0 → (torrentDone f b s).2 = [] ∧ (torrentDone f b s).1.badge = s.badge) ∧
    (1 ≤ b → (torrentDone f b s).2.count DoneEffect.notifyDone = 1) := by
  unfold torrentDone
  by_cases hb : b > 0
  · rw [if_pos hb]
    refine ⟨by cases f <;> rfl, fun h0 => absurd h0 (by omega), fun _ => rfl⟩
  · rw [if_neg hb]
    exact ⟨rfl, fun _ => ⟨rfl, rfl⟩, fun h1 => absurd h1 (by omega)⟩

/-- Witness for C6 at concrete inputs: one byte received yields exactly one
notification; zero bytes yields no effects. -/
theorem torrentDone_notification_witness :
    (torrentDone false 1 ⟨"downloading", 0⟩).2.count DoneEffect.notifyDone = 1 ∧
    (torrentDone false 0 ⟨"downloading", 0⟩).2 = [] :=
  ⟨(torrentDone_notification false 1 ⟨"downloading", 0⟩).2.2 (by decide),
   ((torrentDone_notification false 0 ⟨"downloading", 0⟩).2.1 rfl).1⟩

/-! ### Default file to play (`pickFileToPlay`, `openPlayer`,
main.js lines 785-831)

`TorrentPlayer.isVideo` / `TorrentPlayer.isAudio` are collaborator predicates
on a file descriptor, modelled as boolean fields.  The JS
`files.indexOf(file)` compares object identity, so pairing each file with its
index (`enum`) is a faithful model of the index recovery. -/

structure FileInfo where
  length : Nat
  video : Bool
  audioTrack : Bool
deriving DecidableEq

/-- The `videoFiles.reduce(...)` step: keep the accumulator unless the next
file is strictly larger (ties keep the earlier file). -/
def pickLargest (v : Nat × FileInfo) (vs : List (Nat × FileInfo)) :
    Nat × FileInfo :=
  vs.foldl (fun a b => if a.2.length > b.2.length then a else b) v

/-- Shallow embedding of `pickFileToPlay`: index of the largest video file,
else the first audio file, else none. -/
def pickFileToPlay (files : List FileInfo) : Option Nat :=
  match files.enum.filter fun p => p.2.video with
  | v :: vs => some (pickLargest v vs).1
  | [] =>
    match files.enum.filter fun p => p.2.audioTrack with
    | a :: _ => some a.1
    | [] => none

/-- The index-defaulting chain at the top of `openPlayer`: an explicit index
wins, else the cached `defaultPlayFileIndex`, else recompute. -/
def openPlayerIndex (requested cached : Option Nat) (files : List FileInfo) :
    Option Nat :=
  match requested with
  | some i => some i
  | none =>
    match cached with
    | some i => some i
    | none => pickFileToPlay files

inductive OpenEffect
  | soundPlay
  | setPlayStatusRequested
  | armTimer
deriving DecidableEq

/-- The prefix of `openPlayer` up to arming the timeout: resolve the index; if
none is resolvable fail with the unplayable error before any side effect,
otherwise play the pending sound (unless the download is complete), set the
requested play status and arm the timer. -/
def openPlayerStart (requested cached : Option Nat) (files : List FileInfo)
    (progressComplete : Bool) : Except String (Nat × List OpenEffect) :=
  match openPlayerIndex requested cached files with
  | none => Except.error "UnplayableError"
  | some i =>
      Except.ok (i,
        (if progressComplete then [] else [OpenEffect.soundPlay]) ++
          [OpenEffect.setPlayStatusRequested, OpenEffect.armTimer])

/-- Position of the first file satisfying a predicate, in input order. -/
def firstIdxWith (p : FileInfo → Bool) : List FileInfo → Option Nat
  | [] => none
  | f :: fs => if p f then some 0 else (firstIdxWith p fs).map (· + 1)

lemma mem_enumFrom_getElem {α : Type} :
    ∀ (l : List α) (n : Nat) (p : Nat × α), p ∈ l.enumFrom n →
      n ≤ p.1 ∧ l[p.1 - n]? = some p.2 := by
  intro l
  induction l with
  | nil => intro n p h; cases h
  | cons x xs ih =>
    intro n p h
    simp only [List.enumFrom] at h
    rcases List.mem_cons.mp h with rfl | h
    · exact ⟨Nat.le_refl n, by simp⟩
    · obtain ⟨h1, h2⟩ := ih (n + 1) p h
      refine ⟨by omega, ?_⟩
      have he : p.1 - n = (p.1 - (n + 1)) + 1 := by omega
      rw [he, List.getElem?_cons_succ]
      exact h2

lemma getElem_mem_enumFrom {α : Type} :
    ∀ (l : List α) (n j : Nat) (x : α), l[j]? = some x →
      (n + j, x) ∈ l.enumFrom n := by
  intro l
  induction l with
  | nil => intro n j x h; simp at h
  | cons y ys ih =>
    intro n j x h
    cases j with
    | zero =>
      rw [List.getElem?_cons_zero] at h
      obtain rfl : y = x := by cases h; rfl
      simp [List.enumFrom]
    | succ j' =>
      rw [List.getElem?_cons_succ] at h
      have hmem := ih (n + 1) j' x h
      simp only [List.enumFrom, List.mem_cons]
      right
      have heq : n + (j' + 1) = (n + 1) + j' := by omega
      rw [heq]
      exact hmem

lemma pickLargest_spec :
    ∀ (vs : List (Nat × FileInfo)) (v : Nat × FileInfo),
      (pickLargest v vs = v ∨ pickLargest v vs ∈ vs) ∧
      v.2.length ≤ (pickLargest v vs).2.length ∧
      ∀ b ∈ vs, b.2.length ≤ (pickLargest v vs).2.length := by
  intro vs
  induction vs with
  | nil =>
    intro v
    exact ⟨Or.inl rfl, Nat.le_refl _, fun b hb => absurd hb (List.not_mem_nil b)⟩
  | cons c cs ih =>
    intro v
    have step : pickLargest v (c :: cs) =
        pickLargest (if v.2.length > c.2.length then v else c) cs := rfl
    by_cases hc : v.2.length > c.2.length
    · rw [step, if_pos hc]
      obtain ⟨hmem, hacc, hall⟩ := ih v
      refine ⟨?_, hacc, ?_⟩
      · rcases hmem with h | h
        · exact Or.inl h
        · exact Or.inr (List.mem_cons_of_mem c h)
      · intro b hb
        rcases List.mem_cons.mp hb with rfl | hb
        · omega
        · exact hall b hb
    · rw [step, if_neg hc]
      obtain ⟨hmem, hacc, hall⟩ := ih c
      refine ⟨?_, by omega, ?_⟩
      · rcases hmem with h | h
        · refine Or.inr ?_
          rw [h]
          exact List.mem_cons_self c cs
        · exact Or.inr (List.mem_cons_of_mem c h)
      · intro b hb
        rcases List.mem_cons.mp hb with rfl | hb
        · exact hacc
        · exact hall b hb

lemma filter_enumFrom_head (p : FileInfo → Bool) :
    ∀ (l : List FileInfo) (n : Nat),
      (((l.enumFrom n).filter fun q => p q.2).head?).map Prod.fst =
        (firstIdxWith p l).map (· + n) := by
  intro l
  induction l with
  | nil => intro n; rfl
  | cons x xs ih =>
    intro n
    simp only [List.enumFrom, firstIdxWith]
    by_cases hp : p x
    · rw [List.filter_cons_of_pos (by simpa using hp), if_pos hp]
      simp
    · rw [List.filter_cons_of_neg (by simpa using hp), if_neg hp, ih (n + 1)]
      rcases hfa : firstIdxWith p xs with _ | j
      · rfl
      · show some (j + (n + 1)) = some (j + 1 + n)
        congr 1
        omega

/-- C8: when open is called without a file index, the index resolution tries
the cached per-item default first, then recomputes with `pickFileToPlay`,
which returns the largest video file by size, else the first audio file, else
none; and when the resolution comes up empty the operation fails with the
unplayable error, producing no effect (no sound, no play status, no timer, no
engine command). -/
theorem openPlayer_index_resolution (cached : Option Nat) (files : List FileInfo)
    (progressComplete : Bool) :
    (∀ i, cached = some i → openPlayerIndex none cached files = some i) ∧
    (cached = none → openPlayerIndex none cached files = pickFileToPlay files) ∧
    ((∃ f ∈ files, f.video = true) →
      ∃ (i : Nat) (f : FileInfo), pickFileToPlay files = some i ∧
        files[i]? = some f ∧ f.video = true ∧
        ∀ (j : Nat) (g : FileInfo), files[j]? = some g → g.video = true →
          g.length ≤ f.length) ∧
    ((∀ f ∈ files, f.video = false) →
      pickFileToPlay files = firstIdxWith (fun f => f.audioTrack) files) ∧
    (openPlayerIndex none cached files = none →
      openPlayerStart none cached files progressComplete =
        Except.error "UnplayableError") := by
  refine ⟨?_, ?_, ?_, ?_, ?_⟩
  · intro i h; subst h; rfl
  · intro h; subst h; rfl
  · intro ⟨f, hf, hv⟩
    obtain ⟨jf, hjf⟩ := List.mem_iff_getElem?.mp hf
    have henum : (0 + jf, f) ∈ files.enumFrom 0 :=
      getElem_mem_enumFrom files 0 jf f hjf
    have hfilt : (0 + jf, f) ∈ files.enum.filter fun p => p.2.video :=
      List.mem_filter.mpr ⟨henum, by simpa using hv⟩
    rcases hsplit : files.enum.filter (fun p => p.2.video) with _ | ⟨v, vs⟩
    · rw [hsplit] at hfilt; cases hfilt
    · obtain ⟨hmem, hacc, hall⟩ := pickLargest_spec vs v
      have hr : pickLargest v vs ∈ files.enum.filter fun p => p.2.video := by
        rw [hsplit]
        rcases hmem with h | h
        · rw [h]
          exact List.mem_cons_self v vs
        · exact List.mem_cons_of_mem v h
      obtain ⟨hre, hrv⟩ := List.mem_filter.mp hr
      obtain ⟨-, hget⟩ := mem_enumFrom_getElem files 0 (pickLargest v vs) hre
      refine ⟨(pickLargest v vs).1, (pickLargest v vs).2, ?_, ?_,
        by simpa using hrv, ?_⟩
      · unfold pickFileToPlay
        rw [hsplit]
      · simpa using hget
      · intro j g hjg hgv
        have hjenum : (0 + j, g) ∈ files.enumFrom 0 :=
          getElem_mem_enumFrom files 0 j g hjg
        have hjfilt : (0 + j, g) ∈ files.enum.filter fun p => p.2.video :=
          List.mem_filter.mpr ⟨hjenum, by simpa using hgv⟩
        rw [hsplit] at hjfilt
        rcases List.mem_cons.mp hjfilt with h | h
        · have hg : g = v.2 := congrArg Prod.snd h
          rw [hg]
          exact hacc
        · exact hall _ h
  · intro hnov
    have hvfilt : (files.enum.filter fun p => p.2.video) = [] := by
      rw [List.filter_eq_nil_iff]
      intro p hp
      obtain ⟨-, hget⟩ := mem_enumFrom_getElem files 0 p hp
      have hpmem : p.2 ∈ files := List.getElem?_mem hget
      simp [hnov p.2 hpmem]
    have hhead : ((files.enumFrom 0).filter fun q => q.2.audioTrack).head?.map
        Prod.fst = (firstIdxWith (fun f => f.audioTrack) files).map (· + 0) :=
      filter_enumFrom_head (fun f => f.audioTrack) files 0
    have hpick : pickFileToPlay files =
        ((files.enum.filter fun p => p.2.audioTrack).head?).map Prod.fst := by
      unfold pickFileToPlay
      rw [hvfilt]
      show (match files.enum.filter fun p => p.2.audioTrack with
            | a :: _ => some a.1
            | [] => none) = _
      cases files.enum.filter fun p => p.2.audioTrack
      · rfl
      · rfl
    have henum0 : files.enum = files.enumFrom 0 := rfl
    rw [hpick, henum0, hhead]
    rcases firstIdxWith (fun f => f.audioTrack) files with _ | j
    · rfl
    · simp
  · intro h
    unfold openPlayerStart
    rw [h]

/-- Witness for C8 at concrete inputs: a cached index wins, and an empty file
list is unplayable with no effects. -/
theorem openPlayer_index_resolution_witness :
    openPlayerIndex none (some 5) [] = some 5 ∧
    openPlayerStart none none [] false = Except.error "UnplayableError" :=
  ⟨(openPlayer_index_resolution (some 5) [] false).1 5 rfl,
   (openPlayer_index_resolution none [] false).2.2.2.2 rfl⟩

/-! ### Volume (`setVolume` / `changeVolume`, main.js lines 427-440) -/

inductive VolumeSink
  | toCast (v : ℚ)
  | toLocal (v : ℚ)
deriving DecidableEq

/-- The clamp at the top of `setVolume`: `Math.max(0, Math.min(1, volume))`. -/
def clampVolume (volume : ℚ) : ℚ := max 0 (min 1 volume)

/-- Shallow embedding of `setVolume`: clamp, then route to the remote target
when casting, else store into the playing state for the local media element. -/
def setVolume (casting : Bool) (volume : ℚ) : VolumeSink :=
  if casting then VolumeSink.toCast (clampVolume volume)
  else VolumeSink.toLocal (clampVolume volume)

/-- Shallow embedding of `changeVolume`: delegate to `setVolume` on
`currentVolume + delta`. -/
def changeVolume (casting : Bool) (current delta : ℚ) : VolumeSink :=
  setVolume casting (current + delta)

/-- The volume value actually handed to either sink. -/
def appliedVolume : VolumeSink → ℚ
  | VolumeSink.toCast v => v
  | VolumeSink.toLocal v => v

/-- C9: for every input volume (also below 0 or above 1) and either routing,
the applied volume is `max 0 (min 1 v)`, hence always within `[0, 1]`; and
`changeVolume` applies exactly the same clamp to `current + delta`. -/
theorem setVolume_clamped (c : Bool) (v : ℚ) :
    appliedVolume (setVolume c v) = max 0 (min 1 v) ∧
    0 ≤ appliedVolume (setVolume c v) ∧
    appliedVolume (setVolume c v) ≤ 1 ∧
    ∀ current delta : ℚ, changeVolume c current delta = setVolume c (current + delta) := by
  have h0 : (0 : ℚ) ≤ clampVolume v := le_max_left _ _
  have h1 : clampVolume v ≤ 1 := max_le zero_le_one (min_le_left _ _)
  cases c
  · exact ⟨rfl, h0, h1, fun _ _ => rfl⟩
  · exact ⟨rfl, h0, h1, fun _ _ => rfl⟩

end WebTorrentDesktop
